import Mathlib

set_option maxRecDepth 8000

/-!
Shallow embedding of the Markdown splitter in `src/split_md_by_size.py`.

Strings are modelled as `List Char` (Python `str` is a sequence of Unicode
code points); the byte budget is a `Nat`.  The embedded operations are
`utf8_len`, `find_record_starts` (the regex scan), `split_into_records`,
`chunk_records_by_size` (with its inner `push_current` and the oversized-record
line splitting loop) and the output writer's trailing-newline normalization.
-/

/-- Python `len(s.encode("utf-8"))`: byte length of the UTF-8 encoding
(source: `utf8_len`, line 11). -/
def utf8_len (s : List Char) : Nat := (s.map Char.utf8Size).sum

/-- The set of characters matched by Python's regex class `\s` on `str`
patterns: ASCII whitespace plus the Unicode whitespace code points. -/
def pyIsSpace (c : Char) : Bool :=
  [9, 10, 11, 12, 13, 28, 29, 30, 31, 32, 0x85, 0xa0, 0x1680, 0x2000, 0x2001,
    0x2002, 0x2003, 0x2004, 0x2005, 0x2006, 0x2007, 0x2008, 0x2009, 0x200a,
    0x2028, 0x2029, 0x202f, 0x205f, 0x3000].contains c.toNat

/-- The characters Python `str.splitlines` treats as line boundaries
(`"\r\n"` additionally counts as a single boundary, handled in
`splitlinesAux`). -/
def isLineBreak (c : Char) : Bool :=
  [10, 11, 12, 13, 28, 29, 30, 0x85, 0x2028, 0x2029].contains c.toNat

/-- Python `s.splitlines(keepends=True)` (used in `chunk_records_by_size`,
line 72), accumulator version: `acc` holds the characters of the current
unfinished line in reverse order; `"\r\n"` is a single boundary. -/
def splitlinesAux : List Char → List Char → List (List Char)
  | [], acc => if acc = [] then [] else [acc.reverse]
  | '\r' :: '\n' :: rest, acc => (acc.reverse ++ ['\r', '\n']) :: splitlinesAux rest []
  | c :: rest, acc =>
    if isLineBreak c then (acc.reverse ++ [c]) :: splitlinesAux rest []
    else splitlinesAux rest (c :: acc)

/-- Python `s.splitlines(keepends=True)`. -/
def splitlines (s : List Char) : List (List Char) := splitlinesAux s []

/-- Count of leading newline characters, i.e. the length the regex atom
`\n{2,}` would greedily consume at this position. -/
def leadingNewlines : List Char → Nat
  | [] => 0
  | c :: rest => if c = '\n' then leadingNewlines rest + 1 else 0

/-- The regex fragment `---\n(?=id:\s)` of `find_record_starts` (line 34)
tested at the head of `l`: the next seven characters are `"---\nid:"` and the
eighth is a `\s` character. -/
def headerHere (l : List Char) : Bool :=
  decide (l.take 7 = ['-', '-', '-', '\n', 'i', 'd', ':']) &&
    (match l[7]? with
     | some c => pyIsSpace c
     | none => false)

/-- `re.match(r"(?m)^id:\s", t)` from line 30 of the source: `re.match`
anchors at position 0 of `t`, so this is "starts with `id:` + whitespace". -/
def idMatchHere (l : List Char) : Bool :=
  decide (l.take 3 = ['i', 'd', ':']) &&
    (match l[3]? with
     | some c => pyIsSpace c
     | none => false)

/-- Line 30 of the source: `md.startswith("---\n") and
re.match(r"(?m)^id:\s", md[4:80] or "")`. -/
def startsAtZero (md : List Char) : Bool :=
  decide (md.take 4 = ['-', '-', '-', '\n']) && idMatchHere ((md.drop 4).take 76)

/-- The scan of `pat.finditer(md)` for `pat = \n{2,}(---\n(?=id:\s))`
(lines 34-36): at each position try to match a maximal run of at least two
newlines followed by the header; on success record the position of the
`---` (the start of group 1) and resume after the consumed match, otherwise
advance one character.  The scan consumes at least one character per step,
so a fuel of `l.length` (supplied by `findMatches`) never runs out. -/
def findMatchesFuel : Nat → List Char → Nat → List Nat
  | 0, _, _ => []
  | _, [], _ => []
  | fuel + 1, c :: rest, pos =>
    let k := leadingNewlines (c :: rest)
    if 2 ≤ k ∧ headerHere ((c :: rest).drop k) then
      (pos + k) :: findMatchesFuel fuel ((c :: rest).drop (k + 4)) (pos + k + 4)
    else
      findMatchesFuel fuel rest (pos + 1)

/-- The full `finditer` scan of lines 34-36. -/
def findMatches (l : List Char) (pos : Nat) : List Nat :=
  findMatchesFuel l.length l pos

/-- `find_record_starts` (lines 14-39): the offset-0 test, the finditer scan,
then `sorted(set(starts))`. -/
def find_record_starts (md : List Char) : List Nat :=
  let zs : List Nat := if startsAtZero md then [0] else []
  let ms : List Nat := findMatches md 0
  List.insertionSort (· ≤ ·) (zs ++ ms).dedup

/-- The slicing loop of `split_into_records` (lines 47-50):
`md[st:end]` for consecutive start offsets, the last slice running to the
end of the document. -/
def slicesFrom (md : List Char) : List Nat → List (List Char)
  | [] => []
  | [st] => [md.drop st]
  | st :: st2 :: rest => ((md.drop st).take (st2 - st)) :: slicesFrom md (st2 :: rest)

/-- `split_into_records` (lines 41-51). -/
def split_into_records (md : List Char) : List (List Char) :=
  let starts := find_record_starts md
  if starts = [] then [md] else slicesFrom md starts

/-- The mutable state of `chunk_records_by_size`: the completed chunks, the
current accumulator `cur` and its byte count `cur_bytes`. -/
structure ChunkState where
  chunks : List (List Char)
  cur : List Char
  cur_bytes : Nat
  deriving DecidableEq, Repr

/-- `push_current` (lines 58-63): flush the accumulator if it is non-empty. -/
def push_current (st : ChunkState) : ChunkState :=
  if st.cur = [] then st else ⟨st.chunks ++ [st.cur], [], 0⟩

/-- The inner loop of the oversized-record path (lines 72-84): greedily pack
the record's lines into sub-chunks; `part`/`part_b` mirror the Python local
variables. -/
def lineSplitAux (b : Nat) : List (List Char) → List Char → Nat → List (List Char)
  | [], part, _ => if part = [] then [] else [part]
  | ln :: lns, part, part_b =>
    let ln_b := utf8_len ln
    if b < part_b + ln_b ∧ part ≠ [] then
      part :: lineSplitAux b lns ln ln_b
    else
      lineSplitAux b lns (part ++ ln) (part_b + ln_b)

/-- The whole oversized-record path for one record (lines 71-84). -/
def lineSplit (rec : List Char) (b : Nat) : List (List Char) :=
  lineSplitAux b (splitlines rec) [] 0

/-- One iteration of the `for rec in records` loop of
`chunk_records_by_size` (lines 65-92).  The Python local `rec_b` is written
out as `utf8_len rec`; the first branch is the oversized-record path (flush,
then line-split straight into the output), the second is the would-overflow
flush followed by the unconditional `cur += rec`. -/
def chunkStep (b : Nat) (st : ChunkState) (rec : List Char) : ChunkState :=
  if b < utf8_len rec then
    ⟨(push_current st).chunks ++ lineSplit rec b, (push_current st).cur,
      (push_current st).cur_bytes⟩
  else if b < st.cur_bytes + utf8_len rec ∧ st.cur ≠ [] then
    ⟨(push_current st).chunks, (push_current st).cur ++ rec,
      (push_current st).cur_bytes + utf8_len rec⟩
  else
    ⟨st.chunks, st.cur ++ rec, st.cur_bytes + utf8_len rec⟩

/-- `chunk_records_by_size` (lines 53-95). -/
def chunk_records_by_size (records : List (List Char)) (max_bytes : Nat) : List (List Char) :=
  (push_current (records.foldl (chunkStep max_bytes) ⟨[], [], 0⟩)).chunks

/-- The chunking pipeline applied by `main` (lines 112-113). -/
def pipelineChunks (md : List Char) (max_bytes : Nat) : List (List Char) :=
  chunk_records_by_size (split_into_records md) max_bytes

/-- The writer's per-chunk normalization (lines 129-130): append a newline
only when the chunk does not already end with one. -/
def normalizeChunk (content : List Char) : List Char :=
  if content.getLast? = some '\n' then content else content ++ ['\n']

/-- Concatenation of a list of strings (for round-trip statements). -/
def concatAll (ls : List (List Char)) : List Char := ls.foldr (· ++ ·) []

/-- "Ends with exactly one trailing newline": the reading of claim C7. -/
def endsWithOneNewline (l : List Char) : Prop :=
  l.getLast? = some '\n' ∧ l.dropLast.getLast? ≠ some '\n'

/-- Number of consecutive newline characters immediately before offset `p`. -/
def trailingNewlines (md : List Char) (p : Nat) : Nat :=
  leadingNewlines (md.take p).reverse

/-- Modelled from the claim wording of C2: the number of blank *lines*
immediately before offset `p`.  A maximal run of `r` newline characters
ending at `p` forms `r` blank lines when the run begins the document and
`r - 1` blank lines otherwise (the first newline only terminates the
preceding non-blank line). -/
def claimBlankLines (md : List Char) (p : Nat) : Nat :=
  let r := trailingNewlines md p
  if r = p then r else r - 1

/-- Modelled from the claim wording of C2: offset `p` lies immediately after
a run of two or more consecutive blank lines that is followed by a
recognized record-header marker. -/
def specBlankLineBoundary (md : List Char) (p : Nat) : Prop :=
  2 ≤ claimBlankLines md p ∧ headerHere (md.drop p) = true

/-- The condition under which the finditer scan records a start at offset
`q + 2` of `l`: two newline characters at offsets `q` and `q + 1` and the
record-header marker right after them. -/
def StartCond (l : List Char) (q : Nat) : Prop :=
  l[q]? = some '\n' ∧ l[q + 1]? = some '\n' ∧ headerHere (l.drop (q + 2)) = true

/-- The example document of claim C2. -/
def exampleDoc : List Char := "---\nid: 1\nfoo\n\n\n---\nid: 2\nbar\n".toList

/-- First record of `exampleDoc`, ending right before the second marker. -/
def exampleRec1 : List Char := "---\nid: 1\nfoo\n\n\n".toList

/-- Second record of `exampleDoc`. -/
def exampleRec2 : List Char := "---\nid: 2\nbar\n".toList

/-- A document with a preamble before the first record marker. -/
def preambleDoc : List Char := "x\n\n---\nid: a\nb\n".toList

/-- A document whose record marker at offset 3 is preceded by a single blank
line (a run of exactly two newline characters after the line `a`). -/
def oneBlankDoc : List Char := "a\n\n---\nid: x\n".toList

/-- A two-record document whose first record ends in three newline
characters; its records are 14 and 12 UTF-8 bytes long. -/
def multiNewlineDoc : List Char := "---\nid: a\nx\n\n\n---\nid: b\ny\n".toList

/-- A document with no recognized record marker. -/
def plainDoc : List Char := "hello\nworld\n".toList

/-- A 400-byte record for the greedy-packing example of claim C5. -/
def rec400a : List Char := List.replicate 400 'a'

/-- A 400-byte record for the greedy-packing example of claim C5. -/
def rec400b : List Char := List.replicate 400 'b'

/-- A 400-byte record for the greedy-packing example of claim C5. -/
def rec400c : List Char := List.replicate 400 'c'

/-! ### Basic lemmas about concatenation, byte length and line splitting -/

theorem concatAll_nil : concatAll [] = [] := rfl

theorem concatAll_cons (a : List Char) (ls : List (List Char)) :
    concatAll (a :: ls) = a ++ concatAll ls := rfl

theorem concatAll_append (s t : List (List Char)) :
    concatAll (s ++ t) = concatAll s ++ concatAll t := by
  induction s with
  | nil => rfl
  | cons a s ih => simp [concatAll_cons, ih]

theorem utf8_len_nil : utf8_len [] = 0 := rfl

theorem utf8_len_append (s t : List Char) :
    utf8_len (s ++ t) = utf8_len s + utf8_len t := by
  simp [utf8_len]

theorem splitlinesAux_concat (l acc : List Char) :
    concatAll (splitlinesAux l acc) = acc.reverse ++ l := by
  induction l, acc using splitlinesAux.induct with
  | case1 => simp [splitlinesAux, concatAll]
  | case2 acc h => simp [splitlinesAux, h, concatAll]
  | case3 rest acc ih => simp [splitlinesAux, concatAll_cons, ih]
  | case4 c rest acc hne hbr ih => simp [splitlinesAux, hne, hbr, concatAll_cons, ih]
  | case5 c rest acc hne hbr ih => simp [splitlinesAux, hne, hbr, concatAll_cons, ih]

theorem splitlines_concat (s : List Char) : concatAll (splitlines s) = s := by
  simpa using splitlinesAux_concat s []

theorem lineSplitAux_concat (b : Nat) :
    ∀ (lns : List (List Char)) (part : List Char) (pb : Nat),
      concatAll (lineSplitAux b lns part pb) = part ++ concatAll lns := by
  intro lns
  induction lns with
  | nil =>
    intro part pb
    by_cases h : part = [] <;> simp [lineSplitAux, h, concatAll]
  | cons ln lns ih =>
    intro part pb
    simp only [lineSplitAux]
    split
    · simp [concatAll_cons, ih]
    · simp [concatAll_cons, ih]

theorem lineSplit_concat (rec : List Char) (b : Nat) :
    concatAll (lineSplit rec b) = rec := by
  rw [lineSplit, lineSplitAux_concat]
  simpa using splitlines_concat rec

theorem lineSplitAux_ne_nil (b : Nat) :
    ∀ (lns : List (List Char)) (part : List Char) (pb : Nat) (c : List Char),
      c ∈ lineSplitAux b lns part pb → c ≠ [] := by
  intro lns
  induction lns with
  | nil =>
    intro part pb c hc
    by_cases h : part = [] <;> simp [lineSplitAux, h] at hc
    subst hc; exact h
  | cons ln lns ih =>
    intro part pb c hc
    simp only [lineSplitAux] at hc
    split at hc
    next hcond =>
      rcases List.mem_cons.1 hc with rfl | hc
      · exact hcond.2
      · exact ih ln _ c hc
    next hcond => exact ih _ _ c hc

theorem lineSplitAux_budget (b : Nat) (L : List (List Char)) :
    ∀ (lns : List (List Char)) (part : List Char),
      (∀ x ∈ lns, x ∈ L) → (utf8_len part ≤ b ∨ part ∈ L) →
      ∀ c ∈ lineSplitAux b lns part (utf8_len part), utf8_len c ≤ b ∨ c ∈ L := by
  intro lns
  induction lns with
  | nil =>
    intro part _ hpart c hc
    by_cases h : part = [] <;> simp [lineSplitAux, h] at hc
    subst hc; exact hpart
  | cons ln lns ih =>
    intro part hsub hpart c hc
    simp only [lineSplitAux] at hc
    split at hc
    next hcond =>
      rcases List.mem_cons.1 hc with rfl | hc
      · exact hpart
      · exact ih ln (fun x hx => hsub x (List.mem_cons_of_mem _ hx))
          (Or.inr (hsub ln (List.mem_cons_self _ _))) c hc
    next hcond =>
      rw [← utf8_len_append] at hc
      refine ih (part ++ ln) (fun x hx => hsub x (List.mem_cons_of_mem _ hx)) ?_ c hc
      rcases not_and_or.mp hcond with h1 | h2
      · left
        rw [utf8_len_append]
        omega
      · right
        have : part = [] := not_not.mp h2
        simpa [this] using hsub ln (List.mem_cons_self _ _)

theorem lineSplit_ne_nil (rec : List Char) (b : Nat) :
    ∀ c ∈ lineSplit rec b, c ≠ [] := by
  intro c hc
  exact lineSplitAux_ne_nil b (splitlines rec) [] 0 c hc

theorem lineSplit_budget (rec : List Char) (b : Nat) :
    ∀ c ∈ lineSplit rec b, utf8_len c ≤ b ∨ c ∈ splitlines rec := by
  intro c hc
  exact lineSplitAux_budget b (splitlines rec) (splitlines rec) []
    (fun x hx => hx) (Or.inl (by simp [utf8_len_nil])) c hc

/-! ### Lemmas about the accumulator state of `chunk_records_by_size` -/

theorem push_current_cur (st : ChunkState) : (push_current st).cur = [] := by
  unfold push_current
  split <;> simp_all

theorem push_current_concat (st : ChunkState) :
    concatAll (push_current st).chunks = concatAll st.chunks ++ st.cur := by
  unfold push_current
  split
  · simp_all
  · simp [concatAll_append, concatAll_cons, concatAll_nil]

theorem push_current_bytes (st : ChunkState) (h : st.cur_bytes = utf8_len st.cur) :
    (push_current st).cur_bytes = 0 := by
  unfold push_current
  split
  · simp_all [utf8_len_nil]
  · rfl

theorem push_current_mem (st : ChunkState) :
    ∀ c ∈ (push_current st).chunks, c ∈ st.chunks ∨ c = st.cur := by
  intro c hc
  unfold push_current at hc
  split at hc
  · exact Or.inl hc
  · rcases List.mem_append.1 hc with h | h
    · exact Or.inl h
    · exact Or.inr (by simpa using h)

theorem chunkStep_concat (b : Nat) (st : ChunkState) (rec : List Char) :
    concatAll (chunkStep b st rec).chunks ++ (chunkStep b st rec).cur
      = (concatAll st.chunks ++ st.cur) ++ rec := by
  unfold chunkStep
  split
  · simp [concatAll_append, push_current_concat, push_current_cur, lineSplit_concat]
  · split
    · simp [push_current_concat, push_current_cur]
    · simp

theorem foldl_chunkStep_concat (b : Nat) :
    ∀ (recs : List (List Char)) (st : ChunkState),
      concatAll ((recs.foldl (chunkStep b) st).chunks)
          ++ (recs.foldl (chunkStep b) st).cur
        = (concatAll st.chunks ++ st.cur) ++ concatAll recs := by
  intro recs
  induction recs with
  | nil => intro st; simp [concatAll_nil]
  | cons rec recs ih =>
    intro st
    simp only [List.foldl_cons, concatAll_cons]
    rw [ih, chunkStep_concat]
    simp

theorem chunk_records_concat (recs : List (List Char)) (b : Nat) :
    concatAll (chunk_records_by_size recs b) = concatAll recs := by
  unfold chunk_records_by_size
  have h := foldl_chunkStep_concat b recs ⟨[], [], 0⟩
  rw [push_current_concat]
  simpa [concatAll_nil] using h

/-- Preservation of the packing invariant by one step of the record loop:
`P` holds of all completed chunks, `cur_bytes` tracks the accumulator's byte
length, and the accumulator never exceeds the budget. -/
theorem chunkStep_inv (b : Nat) (P : List Char → Prop) (st : ChunkState) (rec : List Char)
    (hP1 : ∀ c, utf8_len c ≤ b → P c)
    (hP2 : b < utf8_len rec → ∀ c ∈ splitlines rec, P c)
    (h1 : ∀ c ∈ st.chunks, P c)
    (h2 : st.cur_bytes = utf8_len st.cur)
    (h3 : utf8_len st.cur ≤ b) :
    (∀ c ∈ (chunkStep b st rec).chunks, P c)
      ∧ (chunkStep b st rec).cur_bytes = utf8_len (chunkStep b st rec).cur
      ∧ utf8_len (chunkStep b st rec).cur ≤ b := by
  unfold chunkStep
  split
  next hover =>
    refine ⟨?_, ?_, ?_⟩
    · intro c hc
      rcases List.mem_append.1 hc with h | h
      · rcases push_current_mem st c h with h' | h'
        · exact h1 c h'
        · exact hP1 c (h' ▸ h3)
      · rcases lineSplit_budget rec b c h with h' | h'
        · exact hP1 c h'
        · exact hP2 hover c h'
    · simp [push_current_cur, push_current_bytes st h2, utf8_len_nil]
    · simp [push_current_cur, utf8_len_nil]
  next hover =>
    split
    next hcond =>
      refine ⟨?_, ?_, ?_⟩
      · intro c hc
        rcases push_current_mem st c hc with h' | h'
        · exact h1 c h'
        · exact hP1 c (h' ▸ h3)
      · simp [push_current_cur, push_current_bytes st h2, utf8_len_nil]
      · simp [push_current_cur, utf8_len_nil]
        omega
    next hcond =>
      refine ⟨h1, ?_, ?_⟩
      · simp [utf8_len_append, h2]
      · simp only [utf8_len_append]
        rcases not_and_or.mp hcond with hle | hne
        · omega
        · have hnil : st.cur = [] := not_not.mp hne
          simp [hnil, utf8_len_nil]
          omega

theorem foldl_chunkStep_inv (b : Nat) (P : List Char → Prop)
    (hP1 : ∀ c, utf8_len c ≤ b → P c) :
    ∀ (recs : List (List Char)) (st : ChunkState),
      (∀ r ∈ recs, b < utf8_len r → ∀ c ∈ splitlines r, P c) →
      (∀ c ∈ st.chunks, P c) → st.cur_bytes = utf8_len st.cur → utf8_len st.cur ≤ b →
      (∀ c ∈ (recs.foldl (chunkStep b) st).chunks, P c)
        ∧ (recs.foldl (chunkStep b) st).cur_bytes
            = utf8_len (recs.foldl (chunkStep b) st).cur
        ∧ utf8_len (recs.foldl (chunkStep b) st).cur ≤ b := by
  intro recs
  induction recs with
  | nil => intro st _ h1 h2 h3; exact ⟨h1, h2, h3⟩
  | cons rec recs ih =>
    intro st hrecs h1 h2 h3
    simp only [List.foldl_cons]
    obtain ⟨g1, g2, g3⟩ := chunkStep_inv b P st rec hP1
      (hrecs rec (List.mem_cons_self _ _)) h1 h2 h3
    exact ih _ (fun r hr => hrecs r (List.mem_cons_of_mem _ hr)) g1 g2 g3

/-- The budget guarantee of `chunk_records_by_size`: every chunk fits in the
budget except single lines of an oversized record. -/
theorem chunk_records_budget (recs : List (List Char)) (b : Nat) :
    ∀ c ∈ chunk_records_by_size recs b,
      utf8_len c ≤ b ∨ ∃ r, r ∈ recs ∧ b < utf8_len r ∧ c ∈ splitlines r := by
  intro c hc
  unfold chunk_records_by_size at hc
  have hP1 : ∀ x : List Char, utf8_len x ≤ b →
      (utf8_len x ≤ b ∨ ∃ r, r ∈ recs ∧ b < utf8_len r ∧ x ∈ splitlines r) :=
    fun x hx => Or.inl hx
  obtain ⟨g1, g2, g3⟩ := foldl_chunkStep_inv b _ hP1 recs ⟨[], [], 0⟩
    (fun r hr hover x hx => Or.inr ⟨r, hr, hover, hx⟩)
    (by simp) (by simp [utf8_len_nil]) (by simp [utf8_len_nil])
  rcases push_current_mem _ c hc with h | h
  · exact g1 c h
  · exact Or.inl (h ▸ g3)

theorem chunkStep_ne_nil (b : Nat) (st : ChunkState) (rec : List Char)
    (h1 : ∀ c ∈ st.chunks, c ≠ []) :
    ∀ c ∈ (chunkStep b st rec).chunks, c ≠ [] := by
  have hpush : ∀ c ∈ (push_current st).chunks, c ≠ [] := by
    intro c hc
    unfold push_current at hc
    split at hc
    · exact h1 c hc
    next hne =>
      rcases List.mem_append.1 hc with h | h
      · exact h1 c h
      · simp only [List.mem_singleton] at h
        exact h ▸ hne
  unfold chunkStep
  split
  · intro c hc
    rcases List.mem_append.1 hc with h | h
    · exact hpush c h
    · exact lineSplit_ne_nil rec b c h
  · split
    · exact hpush
    · exact h1

theorem chunk_records_ne_nil (recs : List (List Char)) (b : Nat) :
    ∀ c ∈ chunk_records_by_size recs b, c ≠ [] := by
  have hfold : ∀ (l : List (List Char)) (st : ChunkState),
      (∀ c ∈ st.chunks, c ≠ []) →
      ∀ c ∈ (l.foldl (chunkStep b) st).chunks, c ≠ [] := by
    intro l
    induction l with
    | nil => intro st h; exact h
    | cons rec l ih =>
      intro st h
      simp only [List.foldl_cons]
      exact ih _ (chunkStep_ne_nil b st rec h)
  intro c hc
  unfold chunk_records_by_size at hc
  have h1 := hfold recs ⟨[], [], 0⟩ (by simp)
  have hpush : ∀ x ∈ (push_current (recs.foldl (chunkStep b) ⟨[], [], 0⟩)).chunks,
      x ∈ (recs.foldl (chunkStep b) ⟨[], [], 0⟩).chunks
        ∨ x = (recs.foldl (chunkStep b) ⟨[], [], 0⟩).cur := push_current_mem _
  rcases hpush c hc with h | h
  · exact h1 c h
  · subst h
    unfold push_current at hc
    split at hc
    next hnil => exact absurd (hc) (by simp_all)
    next hne => exact hne

/-! ### Characterization of the boundary scan -/

theorem leadingNewlines_get :
    ∀ (l : List Char) (i : Nat), i < leadingNewlines l → l[i]? = some '\n' := by
  intro l
  induction l with
  | nil => intro i h; simp [leadingNewlines] at h
  | cons c rest ih =>
    intro i h
    by_cases hc : c = '\n'
    · subst hc
      cases i with
      | zero => simp
      | succ i =>
        simp only [List.getElem?_cons_succ]
        apply ih
        simp [leadingNewlines] at h
        omega
    · simp [leadingNewlines, hc] at h

theorem leadingNewlines_ge_two (l : List Char)
    (h0 : l[0]? = some '\n') (h1 : l[1]? = some '\n') :
    2 ≤ leadingNewlines l := by
  cases l with
  | nil => simp at h0
  | cons c rest =>
    cases rest with
    | nil => simp at h1
    | cons c2 rest2 =>
      simp only [List.getElem?_cons_zero, Option.some.injEq] at h0
      simp only [List.getElem?_cons_succ, List.getElem?_cons_zero, Option.some.injEq] at h1
      subst h0; subst h1
      simp [leadingNewlines]

theorem headerHere_iff (l : List Char) :
    headerHere l = true ↔
      l.take 7 = ['-', '-', '-', '\n', 'i', 'd', ':']
        ∧ ∃ c, l[7]? = some c ∧ pyIsSpace c = true := by
  unfold headerHere
  cases h : l[7]? with
  | none => simp
  | some c => simp

theorem getElem?_of_take_eq {l L : List Char} {n : Nat}
    (h : l.take n = L) {i : Nat} (hi : i < n) : l[i]? = L[i]? := by
  rw [← h, List.getElem?_take, if_pos hi]

theorem headerHere_facts {l : List Char} (h : headerHere l = true) :
    l[0]? = some '-' ∧ l[1]? = some '-' ∧ l[2]? = some '-'
      ∧ l[3]? = some '\n' ∧ l[4]? = some 'i' := by
  obtain ⟨ht, -⟩ := (headerHere_iff l).1 h
  exact ⟨(getElem?_of_take_eq ht (by omega)).trans rfl,
    (getElem?_of_take_eq ht (by omega)).trans rfl,
    (getElem?_of_take_eq ht (by omega)).trans rfl,
    (getElem?_of_take_eq ht (by omega)).trans rfl,
    (getElem?_of_take_eq ht (by omega)).trans rfl⟩

theorem headerHere_drop_facts {l : List Char} {m : Nat}
    (h : headerHere (l.drop m) = true) :
    l[m]? = some '-' ∧ l[m + 1]? = some '-' ∧ l[m + 2]? = some '-'
      ∧ l[m + 3]? = some '\n' ∧ l[m + 4]? = some 'i' := by
  obtain ⟨g0, g1, g2, g3, g4⟩ := headerHere_facts h
  rw [List.getElem?_drop] at g0 g1 g2 g3 g4
  exact ⟨by simpa using g0, g1, g2, g3, g4⟩

theorem StartCond_drop (l : List Char) (m q : Nat) :
    StartCond (l.drop m) q ↔ StartCond l (m + q) := by
  have e1 : (l.drop m)[q]? = l[m + q]? := List.getElem?_drop l m q
  have e2 : (l.drop m)[q + 1]? = l[m + q + 1]? := by
    rw [List.getElem?_drop]; congr 1
  have e3 : (l.drop m).drop (q + 2) = l.drop (m + q + 2) := by
    rw [List.drop_drop]; congr 1
  simp only [StartCond, e1, e2, e3]

theorem StartCond_cons (c : Char) (l : List Char) (q : Nat) :
    StartCond (c :: l) (q + 1) ↔ StartCond l q := by
  have e2 : (c :: l)[q + 1 + 1]? = l[q + 1]? := List.getElem?_cons_succ ..
  have e3 : (c :: l).drop (q + 1 + 2) = l.drop (q + 2) := by
    have e : q + 1 + 2 = (q + 2) + 1 := by omega
    rw [e, List.drop_succ_cons]
  simp only [StartCond, List.getElem?_cons_succ, e2, e3]

theorem findMatchesFuel_mem :
    ∀ (fuel : Nat) (l : List Char) (pos p : Nat), l.length ≤ fuel →
      (p ∈ findMatchesFuel fuel l pos ↔ ∃ q, p = pos + q + 2 ∧ StartCond l q) := by
  intro fuel
  induction fuel with
  | zero =>
    intro l pos p hl
    have hnil : l = [] := List.length_eq_zero.mp (Nat.le_zero.mp hl)
    subst hnil
    simp [findMatchesFuel, StartCond]
  | succ fuel ih =>
    intro l pos p hl
    cases l with
    | nil => simp [findMatchesFuel, StartCond]
    | cons c rest =>
      simp only [findMatchesFuel]
      set k := leadingNewlines (c :: rest) with hk
      have hget : ∀ i, i < k → (c :: rest)[i]? = some '\n' := by
        intro i hi
        rw [hk] at hi
        exact leadingNewlines_get _ i hi
      split
      next hcond =>
        obtain ⟨hk2, hhdr⟩ := hcond
        have hlen : ((c :: rest).drop (k + 4)).length ≤ fuel := by
          simp only [List.length_drop, List.length_cons]
          simp only [List.length_cons] at hl
          omega
        rw [List.mem_cons, ih _ _ _ hlen]
        obtain ⟨f0, f1, f2, f3, f4⟩ := headerHere_drop_facts hhdr
        constructor
        · rintro (rfl | ⟨q', rfl, hsc⟩)
          · refine ⟨k - 2, by omega, ?_, ?_, ?_⟩
            · exact hget (k - 2) (by omega)
            · exact hget (k - 2 + 1) (by omega)
            · have e : k - 2 + 2 = k := by omega
              rw [e]
              exact hhdr
          · rw [StartCond_drop] at hsc
            exact ⟨k + 4 + q', by omega, hsc⟩
        · rintro ⟨q, rfl, hsc⟩
          obtain ⟨hq0, hq1, hqh⟩ := hsc
          have hcases : q + 2 < k ∨ q + 2 = k ∨ q + 2 = k + 1 ∨ q + 2 = k + 2
              ∨ q + 2 = k + 3 ∨ q + 2 = k + 4 ∨ q + 2 = k + 5 ∨ k + 6 ≤ q + 2 := by
            omega
          rcases hcases with h | h | h | h | h | h | h | h
          · exfalso
            obtain ⟨g0, -⟩ := headerHere_drop_facts hqh
            rw [hget (q + 2) (by omega)] at g0
            simp at g0
          · left; omega
          · exfalso
            have e : q + 1 = k := by omega
            rw [e, f0] at hq1
            simp at hq1
          · exfalso
            have e : q + 1 = k + 1 := by omega
            rw [e, f1] at hq1
            simp at hq1
          · exfalso
            have e : q + 1 = k + 2 := by omega
            rw [e, f2] at hq1
            simp at hq1
          · exfalso
            obtain ⟨g0, -⟩ := headerHere_drop_facts hqh
            rw [h, f4] at g0
            simp at g0
          · exfalso
            have e : q + 1 = k + 4 := by omega
            rw [e, f4] at hq1
            simp at hq1
          · right
            refine ⟨q - (k + 4), by omega, ?_⟩
            rw [StartCond_drop]
            have e : k + 4 + (q - (k + 4)) = q := by omega
            rw [e]
            exact ⟨hq0, hq1, hqh⟩
      next hcond =>
        have hlen : rest.length ≤ fuel := by
          simp only [List.length_cons] at hl
          omega
        rw [ih rest (pos + 1) p hlen]
        constructor
        · rintro ⟨q'', rfl, hsc⟩
          exact ⟨q'' + 1, by omega, (StartCond_cons c rest q'').2 hsc⟩
        · rintro ⟨q, rfl, hsc⟩
          cases q with
          | zero =>
            exfalso
            obtain ⟨h0, h1, hh⟩ := hsc
            simp only [Nat.zero_add] at h1 hh
            have hk2 : 2 ≤ k := by
              rw [hk]
              exact leadingNewlines_ge_two _ h0 h1
            obtain ⟨g0, -⟩ := headerHere_drop_facts hh
            have hklt : k ≤ 2 := by
              by_contra hgt
              push_neg at hgt
              rw [hget 2 (by omega)] at g0
              simp at g0
            have hkeq : k = 2 := le_antisymm hklt hk2
            exact hcond ⟨hk2, by rw [hkeq]; exact hh⟩
          | succ q' =>
            exact ⟨q', by omega, (StartCond_cons c rest q').1 hsc⟩

theorem findMatches_mem (l : List Char) (pos p : Nat) :
    p ∈ findMatches l pos ↔ ∃ q, p = pos + q + 2 ∧ StartCond l q :=
  findMatchesFuel_mem l.length l pos p le_rfl

theorem take_seven_iff (md : List Char) :
    md.take 7 = ['-', '-', '-', '\n', 'i', 'd', ':']
      ↔ md.take 4 = ['-', '-', '-', '\n'] ∧ (md.drop 4).take 3 = ['i', 'd', ':'] := by
  constructor
  · intro h
    constructor
    · have h4 := congrArg (List.take 4) h
      rw [List.take_take] at h4
      norm_num at h4
      exact h4
    · have h3 := congrArg (List.drop 4) h
      rw [List.drop_take] at h3
      norm_num at h3
      exact h3
  · rintro ⟨h4, h3⟩
    have h7 : md.take 7 = md.take 4 ++ (md.drop 4).take 3 := List.take_add md 4 3
    rw [h7, h4, h3]
    rfl

theorem startsAtZero_eq (md : List Char) : startsAtZero md = headerHere md := by
  unfold startsAtZero idMatchHere headerHere
  have ht : ((md.drop 4).take 76).take 3 = (md.drop 4).take 3 := by
    rw [List.take_take]
    norm_num
  have hg : ((md.drop 4).take 76)[3]? = md[7]? := by
    rw [List.getElem?_take, if_pos (by norm_num : (3 : Nat) < 76), List.getElem?_drop]
  rw [ht, hg]
  by_cases h4 : md.take 4 = ['-', '-', '-', '\n']
  · by_cases h3 : (md.drop 4).take 3 = ['i', 'd', ':']
    · have h7 : md.take 7 = ['-', '-', '-', '\n', 'i', 'd', ':'] :=
        (take_seven_iff md).mpr ⟨h4, h3⟩
      simp [h4, h3, h7]
    · have h7 : md.take 7 ≠ ['-', '-', '-', '\n', 'i', 'd', ':'] := fun h =>
        h3 ((take_seven_iff md).mp h).2
      simp [h4, h3, h7]
  · have h7 : md.take 7 ≠ ['-', '-', '-', '\n', 'i', 'd', ':'] := fun h =>
      h4 ((take_seven_iff md).mp h).1
    simp [h4, h7]

/-- The full characterization of `find_record_starts`: offset 0 exactly when
the document opens with the record-header marker, and otherwise exactly the
offsets lying right after two consecutive newline characters and carrying the
marker. -/
theorem mem_find_record_starts (md : List Char) (p : Nat) :
    p ∈ find_record_starts md ↔
      (p = 0 ∧ headerHere md = true) ∨ ∃ q, p = q + 2 ∧ StartCond md q := by
  simp only [find_record_starts]
  rw [List.mem_insertionSort, List.mem_dedup, List.mem_append, findMatches_mem]
  constructor
  · rintro (hz | ⟨q, rfl, hsc⟩)
    · left
      by_cases hs : startsAtZero md = true
      · simp only [hs, if_true, List.mem_singleton] at hz
        exact ⟨hz, by rw [← startsAtZero_eq]; exact hs⟩
      · simp [hs] at hz
    · right
      exact ⟨q, by omega, hsc⟩
  · rintro (⟨rfl, hh⟩ | ⟨q, rfl, hsc⟩)
    · left
      have hs : startsAtZero md = true := by rw [startsAtZero_eq]; exact hh
      simp [hs]
    · right
      exact ⟨q, by omega, hsc⟩

theorem find_record_starts_sorted (md : List Char) :
    List.Sorted (· ≤ ·) (find_record_starts md) := by
  simp only [find_record_starts]
  exact List.sorted_insertionSort _ _

/-! ### Concatenation of the sliced records -/

theorem slicesFrom_concat (md : List Char) :
    ∀ (rest : List Nat) (s0 : Nat), List.Sorted (· ≤ ·) (s0 :: rest) →
      concatAll (slicesFrom md (s0 :: rest)) = md.drop s0 := by
  intro rest
  induction rest with
  | nil => intro s0 _; simp [slicesFrom, concatAll]
  | cons s1 rest ih =>
    intro s0 hsort
    have h01 : s0 ≤ s1 := (List.sorted_cons.1 hsort).1 s1 (List.mem_cons_self _ _)
    have htail : List.Sorted (· ≤ ·) (s1 :: rest) := (List.sorted_cons.1 hsort).2
    simp only [slicesFrom, concatAll_cons, ih s1 htail]
    have hdrop : md.drop s1 = (md.drop s0).drop (s1 - s0) := by
      rw [List.drop_drop]
      congr 1
      omega
    rw [hdrop, List.take_append_drop]

theorem split_into_records_concat (md : List Char) :
    concatAll (split_into_records md) = md.drop ((find_record_starts md).headD 0) := by
  simp only [split_into_records]
  cases h : find_record_starts md with
  | nil => simp [concatAll]
  | cons s0 rest =>
    have hs : List.Sorted (· ≤ ·) (s0 :: rest) := h ▸ find_record_starts_sorted md
    simp [slicesFrom_concat md rest s0 hs]

/-! ### Claim theorems -/

/-- C1 counterexample: the document `"x\n\n---\nid: a\nb\n"` has a two-line
preamble before its only record marker; the concatenation of all emitted
chunks does not reproduce the document. -/
theorem C1_counterexample :
    concatAll (pipelineChunks preambleDoc 100) ≠ preambleDoc := by decide

/-- C1 (amended): concatenating all chunks of
`split_into_records` followed by `chunk_records_by_size`, in emission order,
reproduces the suffix of the document starting at the first detected record
boundary — the whole document exactly when no boundary is detected or the
first boundary is offset 0; any preamble before the first boundary is
dropped. -/
theorem C1_round_trip (md : List Char) (b : Nat) :
    concatAll (pipelineChunks md b) = md.drop ((find_record_starts md).headD 0) := by
  unfold pipelineChunks
  rw [chunk_records_concat, split_into_records_concat]

/-- C2 counterexample: in `"a\n\n---\nid: x\n"` the marker at offset 3 is
preceded by a single blank line (not two or more), yet `find_record_starts`
reports a record start there, so the detector fires at a position the claim
does not license. -/
theorem C2_counterexample :
    3 ∈ find_record_starts oneBlankDoc
      ∧ ¬(3 = 0 ∧ headerHere oneBlankDoc = true)
      ∧ ¬specBlankLineBoundary oneBlankDoc 3 := by
  refine ⟨by decide, by decide, ?_⟩
  unfold specBlankLineBoundary claimBlankLines trailingNewlines
  decide

/-- C2 (amended): `find_record_starts` reports a start at offset 0 exactly
when the document opens with the record-header marker (`"---\n"` immediately
followed by `id:` and a whitespace character), reports a start at every
position immediately after a run of two or more consecutive newline
characters that is followed by the marker, and at no other positions; the
example document yields exactly its two records. -/
theorem C2_boundary_detection :
    (∀ (md : List Char) (p : Nat),
        p ∈ find_record_starts md ↔
          (p = 0 ∧ headerHere md = true)
            ∨ ∃ q, p = q + 2 ∧ md[q]? = some '\n' ∧ md[q + 1]? = some '\n'
                ∧ headerHere (md.drop (q + 2)) = true)
      ∧ split_into_records exampleDoc = [exampleRec1, exampleRec2] := by
  constructor
  · intro md p
    rw [mem_find_record_starts]
    simp only [StartCond]
  · decide

/-- C3: for every record list and budget, the chunks concatenate exactly to
the records (order preserved, no bytes duplicated or dropped), and every
chunk fits within the budget except a chunk that is a single over-budget
line of a record that itself exceeds the budget. -/
theorem C3_budget_respect (recs : List (List Char)) (b : Nat) :
    concatAll (chunk_records_by_size recs b) = concatAll recs
      ∧ ∀ c ∈ chunk_records_by_size recs b,
          utf8_len c ≤ b
            ∨ ∃ r, r ∈ recs ∧ b < utf8_len r ∧ c ∈ splitlines r ∧ b < utf8_len c := by
  refine ⟨chunk_records_concat recs b, ?_⟩
  intro c hc
  rcases chunk_records_budget recs b c hc with h | ⟨r, hr, hover, hline⟩
  · exact Or.inl h
  · by_cases hcb : utf8_len c ≤ b
    · exact Or.inl hcb
    · exact Or.inr ⟨r, hr, hover, hline, by omega⟩

/-- Witness for C3 at a concrete input: the single record `"a"` with budget 0
is over budget, and its one chunk is a single over-budget line. -/
theorem C3_budget_respect_witness :
    ['a'] ∈ chunk_records_by_size [['a']] 0
      ∧ (utf8_len ['a'] ≤ 0
          ∨ ∃ r, r ∈ [['a']] ∧ 0 < utf8_len r ∧ ['a'] ∈ splitlines r
              ∧ 0 < utf8_len ['a']) :=
  ⟨by decide, (C3_budget_respect [['a']] 0).2 ['a'] (by decide)⟩

/-- C4: when a record exceeds the budget, one iteration of the record loop
flushes any non-empty accumulator, then appends the record's line-split
sub-chunks directly to the output with an emptied accumulator; the
sub-chunks concatenate back to the record, and each one fits the budget
except a single line that alone exceeds it.  All embedded functions are
total, so this path terminates (and cannot raise) for every record and every
budget, including a zero budget. -/
theorem C4_oversized_record (st : ChunkState) (rec : List Char) (b : Nat)
    (h : b < utf8_len rec) :
    chunkStep b st rec
        = ⟨(push_current st).chunks ++ lineSplit rec b, [],
            (push_current st).cur_bytes⟩
      ∧ concatAll (lineSplit rec b) = rec
      ∧ ∀ c ∈ lineSplit rec b,
          utf8_len c ≤ b ∨ (c ∈ splitlines rec ∧ b < utf8_len c) := by
  refine ⟨?_, lineSplit_concat rec b, ?_⟩
  · unfold chunkStep
    rw [if_pos h, push_current_cur]
  · intro c hc
    rcases lineSplit_budget rec b c hc with h' | h'
    · exact Or.inl h'
    · by_cases hcb : utf8_len c ≤ b
      · exact Or.inl hcb
      · exact Or.inr ⟨h', by omega⟩

/-- Witness for C4 at a concrete input: the record `"ab\ncd\n"` (6 bytes)
against budget 3 with a non-empty accumulator. -/
theorem C4_oversized_record_witness :
    3 < utf8_len ("ab\ncd\n".toList)
      ∧ chunkStep 3 ⟨[], ['z'], 1⟩ ("ab\ncd\n".toList)
          = ⟨[['z'], "ab\n".toList, "cd\n".toList], [], 0⟩ := by
  refine ⟨by decide, ?_⟩
  rw [(C4_oversized_record ⟨[], ['z'], 1⟩ ("ab\ncd\n".toList) 3 (by decide)).1]
  decide

/-- C5: packing is strictly greedy left-to-right: a record that fits the
budget is appended to the accumulator, unless that would overflow the budget
while the accumulator is non-empty, in which case the accumulator is flushed
first and the record starts the new accumulator; in particular three records
of 400 bytes with budget 1000 give exactly the chunks rec1+rec2 and rec3. -/
theorem C5_greedy_packing :
    (∀ (st : ChunkState) (rec : List Char) (b : Nat), utf8_len rec ≤ b →
        chunkStep b st rec
          = if b < st.cur_bytes + utf8_len rec ∧ st.cur ≠ [] then
              ⟨st.chunks ++ [st.cur], rec, utf8_len rec⟩
            else
              ⟨st.chunks, st.cur ++ rec, st.cur_bytes + utf8_len rec⟩)
      ∧ chunk_records_by_size [rec400a, rec400b, rec400c] 1000
          = [rec400a ++ rec400b, rec400c] := by
  constructor
  · intro st rec b h
    unfold chunkStep
    rw [if_neg (by omega : ¬b < utf8_len rec)]
    split
    next hcond =>
      unfold push_current
      rw [if_neg hcond.2]
      simp
    next hcond => rfl
  · rfl

/-- Witness for C5 at a concrete input: appending a 2-byte record to a
1-byte accumulator under budget 5 does not flush. -/
theorem C5_greedy_packing_witness :
    utf8_len ['z', 'w'] ≤ 5
      ∧ chunkStep 5 ⟨[['x']], ['y'], 1⟩ ['z', 'w'] = ⟨[['x']], ['y', 'z', 'w'], 3⟩ := by
  refine ⟨by decide, ?_⟩
  rw [C5_greedy_packing.1 ⟨[['x']], ['y'], 1⟩ ['z', 'w'] 5 (by decide)]
  decide

/-- C6 counterexample: the empty document has no boundaries, becomes the
single record `""`, and fits a budget of 10, yet it yields zero chunks
rather than exactly one. -/
theorem C6_counterexample :
    find_record_starts ([] : List Char) = []
      ∧ split_into_records ([] : List Char) = [[]]
      ∧ utf8_len ([] : List Char) ≤ 10
      ∧ (pipelineChunks [] 10).length ≠ 1 := by decide

/-- C6 (amended): a document in which no boundary is detected becomes the
single record equal to the whole document; a *non-empty* such document
yields exactly the one chunk `[md]` when its byte length fits the budget and
the line-split oversized output when it does not, while the empty document
yields no chunks at all. -/
theorem C6_no_boundaries (md : List Char) (b : Nat)
    (h : find_record_starts md = []) :
    split_into_records md = [md]
      ∧ (md ≠ [] → utf8_len md ≤ b → pipelineChunks md b = [md])
      ∧ (b < utf8_len md → pipelineChunks md b = lineSplit md b)
      ∧ (md = [] → pipelineChunks md b = []) := by
  have hrec : split_into_records md = [md] := by
    simp [split_into_records, h]
  have hpipe : pipelineChunks md b = chunk_records_by_size [md] b := by
    unfold pipelineChunks
    rw [hrec]
  refine ⟨hrec, ?_, ?_, ?_⟩
  · intro hne hle
    rw [hpipe]
    unfold chunk_records_by_size
    simp only [List.foldl_cons, List.foldl_nil]
    unfold chunkStep
    rw [if_neg (by omega : ¬b < utf8_len md), if_neg (by simp)]
    unfold push_current
    simp [hne]
  · intro hover
    rw [hpipe]
    unfold chunk_records_by_size
    simp only [List.foldl_cons, List.foldl_nil]
    unfold chunkStep
    rw [if_pos hover]
    unfold push_current
    simp
  · rintro rfl
    rw [hpipe]
    unfold chunk_records_by_size
    simp only [List.foldl_cons, List.foldl_nil]
    unfold chunkStep
    rw [if_neg (by simp [utf8_len_nil]), if_neg (by simp)]
    unfold push_current
    simp

/-- Witness for C6 at a concrete input: `"hello\nworld\n"` has no marker and
fits a budget of 100, yielding exactly one chunk. -/
theorem C6_no_boundaries_witness :
    find_record_starts plainDoc = []
      ∧ split_into_records plainDoc = [plainDoc]
      ∧ pipelineChunks plainDoc 100 = [plainDoc] := by
  have h := C6_no_boundaries plainDoc 100 (by decide)
  exact ⟨by decide, h.1, h.2.1 (by decide) (by decide)⟩

/-- C7 counterexample: with a 14-byte budget the document
`"---\nid: a\nx\n\n\n---\nid: b\ny\n"` produces a first chunk that ends in
three newlines; the writer's normalization leaves it unchanged, so the
serialized content does not end with exactly one trailing newline. -/
theorem C7_counterexample :
    ¬endsWithOneNewline
        (normalizeChunk ((pipelineChunks multiNewlineDoc 14).headD [])) := by
  unfold endsWithOneNewline normalizeChunk
  decide

/-- C7 (amended): the writer guarantees *at least* one trailing newline:
content already ending in a newline is serialized unchanged (keeping all of
its trailing newlines), and otherwise exactly one newline is appended. -/
theorem C7_trailing_newline (content : List Char) :
    (normalizeChunk content).getLast? = some '\n'
      ∧ (content.getLast? = some '\n' → normalizeChunk content = content)
      ∧ (content.getLast? ≠ some '\n' → normalizeChunk content = content ++ ['\n']) := by
  unfold normalizeChunk
  by_cases h : content.getLast? = some '\n'
  · rw [if_pos h]
    exact ⟨h, fun _ => rfl, fun hn => absurd h hn⟩
  · rw [if_neg h]
    exact ⟨List.getLast?_concat _, fun hc => absurd hc h, fun _ => rfl⟩

/-- Witness for C7 at a concrete input: content ending in two newlines is
written unchanged. -/
theorem C7_trailing_newline_witness :
    normalizeChunk ['\n', '\n'] = ['\n', '\n'] :=
  (C7_trailing_newline ['\n', '\n']).2.1 (by decide)

/-- C8: the chunking pipeline is deterministic: it is a pure function of the
document and the budget, so two runs on equal inputs produce byte-identical
chunk sequences. -/
theorem C8_deterministic (md1 md2 : List Char) (b1 b2 : Nat)
    (hmd : md1 = md2) (hb : b1 = b2) :
    pipelineChunks md1 b1 = pipelineChunks md2 b2 := by
  rw [hmd, hb]

/-- Witness for C8 at a concrete input. -/
theorem C8_deterministic_witness :
    pipelineChunks exampleDoc 14 = pipelineChunks exampleDoc 14 :=
  C8_deterministic exampleDoc exampleDoc 14 14 rfl rfl

/-- C9: when at least one boundary is detected, the records returned by
`split_into_records` concatenate exactly to the document's suffix starting at
the first boundary offset, so the preamble before it appears in no record. -/
theorem C9_preamble_excluded (md : List Char) (s0 : Nat) (rest : List Nat)
    (h : find_record_starts md = s0 :: rest) :
    concatAll (split_into_records md) = md.drop s0 := by
  rw [split_into_records_concat, h]
  rfl

/-- Witness for C9 at a concrete input: `"x\n\n---\nid: a\nb\n"` has its first
boundary at offset 3 and its records concatenate to the suffix from 3. -/
theorem C9_preamble_excluded_witness :
    find_record_starts preambleDoc = [3]
      ∧ concatAll (split_into_records preambleDoc) = preambleDoc.drop 3 :=
  ⟨by decide, C9_preamble_excluded preambleDoc 3 [] (by decide)⟩

/-- C10: every chunk produced by `chunk_records_by_size` is non-empty, and
the empty document produces an empty chunk list (hence zero part files). -/
theorem C10_chunks_nonempty :
    (∀ (recs : List (List Char)) (b : Nat) (c : List Char),
        c ∈ chunk_records_by_size recs b → c ≠ [])
      ∧ ∀ b : Nat, pipelineChunks [] b = [] := by
  constructor
  · intro recs b c hc
    exact chunk_records_ne_nil recs b c hc
  · intro b
    have hsplit : split_into_records ([] : List Char) = [[]] := by decide
    unfold pipelineChunks
    rw [hsplit]
    unfold chunk_records_by_size
    simp only [List.foldl_cons, List.foldl_nil]
    unfold chunkStep
    rw [if_neg (by simp [utf8_len_nil]), if_neg (by simp)]
    unfold push_current
    simp

/-- Witness for C10 at a concrete input. -/
theorem C10_chunks_nonempty_witness :
    ['a'] ∈ chunk_records_by_size [['a']] 5 ∧ ['a'] ≠ [] :=
  ⟨by decide, C10_chunks_nonempty.1 [['a']] 5 ['a'] (by decide)⟩
